import Mathlib

/-!
Shallow embedding of the state-synchronization core of the spreadsheet-to-chart
editor (`src/App.tsx`): the column registry (`SeriesMeta`), the row store
(`DataRow`), the chart field mappings, the consistency reconciler, the
multi-series selection reconciler, the sweep-toggle controller, the reorder
handlers and the histogram binning. JavaScript numbers are modelled as exact
rationals (the dataset's values are small integers, far from any double
rounding), scalar cell values as a number-or-string sum type, and the reactive
`useEffect` reconcilers as explicit functions from the post-mutation state.
-/

namespace ChartDemo

/-- Scalar cell value of a row: `string | number` as stored by the app. -/
inductive Value where
  | num (q : ℚ)
  | str (s : String)
deriving DecidableEq, Repr

/-- Column registry entry (`SeriesMeta` in the source). -/
structure SeriesMeta where
  id : String
  label : String
  color : String
  visible : Bool
deriving DecidableEq, Repr

/-- Row record (`DataRow` in the source): the `key` field, the per-column
fields as an association list in property order, and the `_hidden` flag
(`undefined` modelled as `false`). -/
structure DataRow where
  key : Value
  fields : List (String × Value)
  hidden : Bool
deriving DecidableEq, Repr

instance : Inhabited DataRow := ⟨⟨Value.str "", [], false⟩⟩

/-- Property read `r[c]` on a row: the column `"key"` reads the key field,
any other name reads the association list; an absent property is `none`
(JS `undefined`). -/
def DataRow.get (r : DataRow) (c : String) : Option Value :=
  if c = "key" then some r.key
  else (r.fields.find? (fun p => p.1 == c)).map Prod.snd

/-- JS `String(v)` on a stored scalar: a string renders as itself, an
integral number renders as its decimal digits without a point (all numeric
keys this app produces are integral; the non-integral case keeps a
definite rendering so the function stays total). -/
def jsString : Value → String
  | .str s => s
  | .num q => if q.den = 1 then toString q.num else toString q

/-- JS `String.prototype.trim()`: strips whitespace from both ends. -/
def jsTrim (s : String) : String :=
  String.mk (((s.data.dropWhile Char.isWhitespace).reverse.dropWhile Char.isWhitespace).reverse)

/-- JS `String.prototype.toLowerCase()` on the ASCII labels this app uses. -/
def jsToLower (s : String) : String :=
  String.mk (s.data.map Char.toLower)

/-- JS `String.prototype.split(sep)` for a single-character separator. -/
def splitOnChar (c : Char) : List Char → List (List Char)
  | [] => [[]]
  | x :: xs =>
    match splitOnChar c xs, x == c with
    | r, true => [] :: r
    | [], false => [[x]]
    | h :: t, false => (x :: h) :: t

/-- Identifiers of the currently visible columns, in registry order
(`series.filter(s => s.visible).map(s => s.id)`). -/
def visibleIds (series : List SeriesMeta) : List String :=
  (series.filter (fun s => s.visible)).map (fun s => s.id)

/-- Chart-type field mapping slots held in component state (each slot holds a
column id or the empty sentinel `""`). -/
structure Mapping where
  labelColumn : String
  pieSeriesColumn : String
  histogramColumn : String
  scatterYColumn : String
  scatterXColumn : String
  scatterSizeColumn : String
  scatterColorColumn : String
  barColorColumn : String
deriving DecidableEq, Repr

/-- Consistency reconciler for the single-column mapping slots: the
`useEffect` at App.tsx:335-341. Each of `pieSeriesColumn`,
`histogramColumn`, `scatterYColumn` falls back to `visibleIds[0] || ''`
when it is not among the visible ids; `labelColumn` falls back to `'key'`
when it is neither `'key'` nor visible. The other slots are not touched
by this effect. -/
def reconcileMappings (series : List SeriesMeta) (m : Mapping) : Mapping :=
  let ids := visibleIds series
  { m with
    pieSeriesColumn :=
      if ids.contains m.pieSeriesColumn then m.pieSeriesColumn else ids.headD ""
    histogramColumn :=
      if ids.contains m.histogramColumn then m.histogramColumn else ids.headD ""
    scatterYColumn :=
      if ids.contains m.scatterYColumn then m.scatterYColumn else ids.headD ""
    labelColumn :=
      if m.labelColumn != "key" && !(ids.contains m.labelColumn) then "key"
      else m.labelColumn }

/-- UI warning condition at App.tsx:642: `!series.some(s => s.id ===
scatterYColumn && s.visible)` (shown for the scatter chart as "Selected Y
axis series hidden."). -/
def hiddenYWarning (series : List SeriesMeta) (scatterYColumn : String) : Bool :=
  !(series.any (fun s => s.id == scatterYColumn && s.visible))

/-- Multi-series selection reconciler: the `useEffect` at App.tsx:123-130.
Keeps previously selected ids that are still visible; when none remain it
auto-populates with the first `min(3, n)` visible ids. -/
def reconcileSelected (series : List SeriesMeta) (prev : List String) : List String :=
  let ids := visibleIds series
  let filtered := prev.filter (fun id => ids.contains id)
  if filtered.length ≠ 0 then filtered
  else ids.take (min 3 ids.length)

/-- Visibility flip of one column in the registry (the `setSeries` updater
inside `toggleSeriesVisible`, App.tsx:119). -/
def toggleVisible (id : String) (series : List SeriesMeta) : List SeriesMeta :=
  series.map (fun s => if s.id = id then { s with visible := !s.visible } else s)

/-- App.tsx:118-121 `toggleSeriesVisible`: flips the column's visibility and
unconditionally removes its id from the multi-series selection. -/
def toggleSeriesVisible (id : String) (series : List SeriesMeta)
    (selected : List String) : List SeriesMeta × List String :=
  (toggleVisible id series, selected.filter (fun sid => sid != id))

/-- App.tsx:161-170 `commitRenameSeries`: trims the edit buffer, silently
rejects an empty result or a case-insensitive collision with another
column's label, otherwise writes the trimmed label. -/
def commitRenameSeries (editingSeriesId : Option String) (editingValue : String)
    (series : List SeriesMeta) : List SeriesMeta :=
  match editingSeriesId with
  | none => series
  | some eid =>
    let trimmed := jsTrim editingValue
    if trimmed = "" then series
    else if series.any (fun s => s.id != eid && jsToLower s.label == jsToLower trimmed)
    then series
    else series.map (fun s => if s.id = eid then { s with label := trimmed } else s)

/-- Test of the strict optional-sign decimal pattern
`/^[-+]?\d+(\.\d+)?$/` used by `commitEditRowHeader` (App.tsx:261). -/
def matchesNumberPattern (s : String) : Bool :=
  let cs := match s.data with
    | c :: rest => if c == '+' || c == '-' then rest else s.data
    | [] => []
  match splitOnChar '.' cs with
  | [a] => !a.isEmpty && a.all Char.isDigit
  | [a, b] => !a.isEmpty && a.all Char.isDigit && !b.isEmpty && b.all Char.isDigit
  | _ => false

/-- Decimal digits read as a natural number (the integer or fractional part
of a matched decimal string). -/
def digitsToNat (cs : List Char) : ℕ :=
  cs.foldl (fun n c => 10 * n + (c.toNat - 48)) 0

/-- JS `Number(s)` on a string that matches the decimal pattern above (the
only place `commitEditRowHeader` stores the parsed number): sign, integer
part and optional fractional part, as an exact rational. -/
def parseDecimal (s : String) : ℚ :=
  let neg := match s.data with | c :: _ => c == '-' | [] => false
  let cs := match s.data with
    | c :: rest => if c == '+' || c == '-' then rest else s.data
    | [] => []
  let mag : ℚ :=
    match splitOnChar '.' cs with
    | [a] => (digitsToNat a : ℚ)
    | [a, b] => (digitsToNat a : ℚ) + (digitsToNat b : ℚ) / (10 ^ b.length : ℚ)
    | _ => 0
  if neg then -mag else mag

/-- Property write `row[c] = v` used by `commitEditRowHeader`'s non-key
branch: replaces the property in place or appends it. -/
def DataRow.setField (r : DataRow) (c : String) (v : Value) : DataRow :=
  if c = "key" then { r with key := v }
  else if r.fields.any (fun p => p.1 == c) then
    { r with fields := r.fields.map (fun p => if p.1 == c then (c, v) else p) }
  else { r with fields := r.fields ++ [(c, v)] }

/-- App.tsx:248-269 `commitEditRowHeader`: trims the edit buffer and rejects
an empty result; when the label column is `'key'` it rejects (no-op) when
another row's string-rendered key equals the trimmed input
(`String(r.key) === String(value)`, and `String(value)` is `value` itself),
then stores `Number(value)` when the input matches the strict decimal
pattern (such a match never parses to `NaN`, so the source's
`!isNaN(num) &&` conjunct is subsumed) and the raw string otherwise; for a
non-key label column it writes the trimmed string with no duplicate check.
The UI only ever commits at a rendered row's index, so an out-of-range
index is mapped to a no-op. -/
def commitEditRowHeader (editingRowIndex : Option Nat) (editingRowValue : String)
    (labelColumn : String) (rows : List DataRow) : List DataRow :=
  match editingRowIndex with
  | none => rows
  | some idx =>
    let value := jsTrim editingRowValue
    if value = "" then rows
    else
      match rows[idx]? with
      | none => rows
      | some row =>
        if labelColumn = "key" then
          if rows.enum.any (fun p => p.1 != idx && jsString p.2.key == value) then rows
          else rows.set idx
            { row with key :=
                if matchesNumberPattern value then Value.num (parseDecimal value)
                else Value.str value }
        else rows.set idx (DataRow.setField row labelColumn (Value.str value))

/-- App.tsx:145-147 `hideRow`: flips the `_hidden` flag of the row at the
given index (`prev.map((r, i) => i === index ? { ...r, _hidden: !r._hidden } : r)`). -/
def mapIdxFrom {α : Type} (f : ℕ → α → α) : ℕ → List α → List α
  | _, [] => []
  | i, a :: rest => f i a :: mapIdxFrom f (i + 1) rest

/-- Visibility flip of the row at `index` (the `setRows` updater of `hideRow`). -/
def hideRow (index : ℕ) (rows : List DataRow) : List DataRow :=
  mapIdxFrom (fun i r => if i = index then { r with hidden := !r.hidden } else r) 0 rows

/-- Kind of an in-progress sweep gesture (`sweepActive.current`, App.tsx:104). -/
inductive SweepKind where
  | row
  | series
deriving DecidableEq, Repr

/-- Mutable state touched by the sweep-toggle controller: the gesture kind
and touched sets (App.tsx:104-106) together with the registry, the
multi-series selection and the row store the handlers mutate. -/
structure SweepSt where
  sweepActive : Option SweepKind
  sweepSeriesSet : List String
  sweepRowSet : List Value
  series : List SeriesMeta
  selectedSeriesIds : List String
  rows : List DataRow
deriving DecidableEq, Repr

/-- App.tsx:271-279 `handleSeriesHeaderMouseDown` past its guards (primary
button, not on a control, not mid-rename): toggles the pressed column and
records it as touched, entering the `series` sweep. -/
def handleSeriesHeaderMouseDown (id : String) (st : SweepSt) : SweepSt :=
  let p := toggleSeriesVisible id st.series st.selectedSeriesIds
  { st with
    series := p.1
    selectedSeriesIds := p.2
    sweepActive := some SweepKind.series
    sweepSeriesSet := id :: st.sweepSeriesSet }

/-- App.tsx:280-285 `handleSeriesHeaderMouseEnter`: while a series sweep is
active, toggles a column not yet in the touched set and records it;
otherwise does nothing. -/
def handleSeriesHeaderMouseEnter (id : String) (st : SweepSt) : SweepSt :=
  if st.sweepActive = some SweepKind.series ∧ st.sweepSeriesSet.contains id = false then
    let p := toggleSeriesVisible id st.series st.selectedSeriesIds
    { st with
      series := p.1
      selectedSeriesIds := p.2
      sweepSeriesSet := id :: st.sweepSeriesSet }
  else st

/-- App.tsx:286-292 `handleRowHeaderMouseDown` past its guards: flips the
pressed row and records its key as touched, entering the `row` sweep. -/
def handleRowHeaderMouseDown (ri : ℕ) (key : Value) (st : SweepSt) : SweepSt :=
  { st with
    rows := hideRow ri st.rows
    sweepActive := some SweepKind.row
    sweepRowSet := key :: st.sweepRowSet }

/-- App.tsx:293-298 `handleRowHeaderMouseEnter`: while a row sweep is active,
flips a row whose key is not yet in the touched set and records it. -/
def handleRowHeaderMouseEnter (ri : ℕ) (key : Value) (st : SweepSt) : SweepSt :=
  if st.sweepActive = some SweepKind.row ∧ st.sweepRowSet.contains key = false then
    { st with rows := hideRow ri st.rows, sweepRowSet := key :: st.sweepRowSet }
  else st

/-- App.tsx:107-111 `endSweep`, run by the window-level mouse-up listener:
leaves the gesture, clearing both touched sets. -/
def endSweep (st : SweepSt) : SweepSt :=
  { st with sweepActive := none, sweepSeriesSet := [], sweepRowSet := [] }

/-- One whole series sweep gesture: the initiating header press followed by
the header-enter events observed before the button release. -/
def runSeriesSweep (h0 : String) (enters : List String) (st : SweepSt) : SweepSt :=
  enters.foldl (fun acc id => handleSeriesHeaderMouseEnter id acc)
    (handleSeriesHeaderMouseDown h0 st)

/-- One whole row sweep gesture: the initiating press on row `e0` (rendered
index and key) followed by the row-enter events before release. -/
def runRowSweep (e0 : ℕ × Value) (enters : List (ℕ × Value)) (st : SweepSt) : SweepSt :=
  enters.foldl (fun acc e => handleRowHeaderMouseEnter e.1 e.2 acc)
    (handleRowHeaderMouseDown e0.1 e0.2 st)

/-- Sequence of column ids passed to `toggleSeriesVisible` by the enter
events of a series sweep whose touched set currently holds `touched`:
an id not yet touched is toggled and added, a touched one is skipped. -/
def seriesSweepLog (touched : List String) : List String → List String
  | [] => []
  | h :: rest =>
    if touched.contains h then seriesSweepLog touched rest
    else h :: seriesSweepLog (h :: touched) rest

/-- Sequence of row indices passed to `hideRow` by the enter events of a row
sweep whose touched key set currently holds `touched`. -/
def rowSweepLog (touched : List Value) : List (ℕ × Value) → List ℕ
  | [] => []
  | e :: rest =>
    if touched.contains e.2 then rowSweepLog touched rest
    else e.1 :: rowSweepLog (e.2 :: touched) rest

/-- App.tsx:183-196 `onSeriesDrop`: a drop with no drag in progress or onto
the dragged column itself is a no-op; otherwise the dragged column is
spliced out and re-inserted at the target's former index (`findIndex`
returning `-1` is the `none` case). -/
def onSeriesDrop (dragSeriesId : Option String) (targetId : String)
    (series : List SeriesMeta) : List SeriesMeta :=
  match dragSeriesId with
  | none => series
  | some sourceId =>
    if sourceId = targetId then series
    else
      match series.findIdx? (fun s => s.id == sourceId),
            series.findIdx? (fun s => s.id == targetId) with
      | some srcIdx, some tgtIdx =>
        match series[srcIdx]? with
        | some moved => (series.eraseIdx srcIdx).insertIdx tgtIdx moved
        | none => series
      | _, _ => series

/-- Vertical half of the drop target the pointer is over
(`rowDragPosition`, App.tsx:98). -/
inductive DropPos where
  | above
  | below
deriving DecidableEq, Repr

/-- App.tsx:218-236 `onRowDrop`: computes the insertion point from the
target's index and the above/below half, subtracts one when the removal of
an earlier source shifts it, no-ops when the insertion point equals the
source index, otherwise splices the row out and back in. -/
def onRowDrop (dragRowKey : Option Value) (rowDragPosition : Option DropPos)
    (targetKey : Value) (rows : List DataRow) : List DataRow :=
  match dragRowKey with
  | none => rows
  | some sourceKey =>
    match rows.findIdx? (fun r => r.key == sourceKey),
          rows.findIdx? (fun r => r.key == targetKey) with
    | some srcIdx, some tgtIdx =>
      let insertIndex := tgtIdx + (if rowDragPosition = some DropPos.below then 1 else 0)
      let insertIndex := if srcIdx < insertIndex then insertIndex - 1 else insertIndex
      if insertIndex = srcIdx then rows
      else
        match rows[srcIdx]? with
        | some moved => (rows.eraseIdx srcIdx).insertIdx insertIndex moved
        | none => rows
    | _, _ => rows

/-- JS `Math.min` on two (non-NaN) numbers. -/
def jsMin (a b : ℚ) : ℚ := if a ≤ b then a else b

/-- JS `Math.max` on two (non-NaN) numbers. -/
def jsMax (a b : ℚ) : ℚ := if a ≤ b then b else a

/-- Bin label endpoint `Number(x.toFixed(2))` (App.tsx:438): rounding to two
decimal places, halves away from zero on the nonnegative values that occur
here. -/
def round2 (q : ℚ) : ℚ := ((q * 100 + 1 / 2).floor : ℚ) / 100

/-- Bin index of one value (App.tsx:431-432): `Math.floor((v - min) /
binSize)` clamped to `binCount - 1` when it reaches `binCount`. -/
def jsBinIndex (mn binSize : ℚ) (binCount : ℤ) (v : ℚ) : ℤ :=
  let idx := Rat.floor ((v - mn) / binSize)
  if binCount ≤ idx then binCount - 1 else idx

/-- One rendered histogram bar: the numeric endpoints of its `"start–end"`
label and its count. -/
structure HistBin where
  lo : ℚ
  hi : ℚ
  count : ℕ
deriving DecidableEq, Repr

/-- Bin `i` of the histogram (App.tsx:429-439): endpoints `min + i*binSize`
and `min + (i+1)*binSize` rounded for the label, and the number of values
whose clamped bin index is `i` (the source increments `bins[idx].count`
over the values, which counts exactly these). -/
def mkHistBin (mn binSize : ℚ) (binCount : ℤ) (values : List ℚ) (i : ℕ) : HistBin :=
  { lo := round2 (mn + (i : ℚ) * binSize)
    hi := round2 (mn + (i : ℚ) * binSize + binSize)
    count := values.countP (fun v => jsBinIndex mn binSize binCount v == Int.ofNat i) }

/-- App.tsx:420-439, the histogram branch of `renderChartContents`: the
numeric values of the chosen column over the non-hidden rows; `none` is the
"No numeric data" rendering when there are none. Otherwise
`binCount = Math.max(1, histogramBins)`, `binSize = (max - min) / binCount`
with `1` substituted when that quotient is `0` (the JS `|| 1`), and one
`HistBin` per bin index. -/
def histogramBinsFor (rows : List DataRow) (histogramColumn : String)
    (histogramBins : ℤ) : Option (List HistBin) :=
  let chartRows := rows.filter (fun r => !r.hidden)
  let values := chartRows.filterMap (fun r =>
    match DataRow.get r histogramColumn with
    | some (Value.num q) => some q
    | _ => none)
  match values with
  | [] => none
  | v0 :: vs =>
    let mn := vs.foldl jsMin v0
    let mx := vs.foldl jsMax v0
    let binCount : ℤ := if histogramBins ≤ 1 then 1 else histogramBins
    let binSize : ℚ :=
      if (mx - mn) / (binCount : ℚ) = 0 then 1 else (mx - mn) / (binCount : ℚ)
    some ((List.range binCount.toNat).map (mkHistBin mn binSize binCount (v0 :: vs)))

/-! Concrete fixtures for the spec's scenarios. -/

/-- Registry with `Revenue` visible and `COGS` just hidden. -/
def c2Series : List SeriesMeta :=
  [⟨"Revenue", "Revenue", "#ef4444", true⟩, ⟨"COGS", "COGS", "#f59e0b", false⟩]

/-- Mapping state at the moment `COGS` was hidden while being the scatter
Y-axis column. -/
def c2Mapping : Mapping :=
  ⟨"key", "Revenue", "Revenue", "COGS", "key", "", "", ""⟩

/-! Claim theorems. -/

/-- C3: after any column-visibility change the multi-series selection keeps
every previously selected id that is still visible; when none remains it is
repopulated with the first `min(3, n)` visible ids in registry order; hence
it is never empty while at least one column is visible. -/
theorem c3_selection_reconciler :
    ∀ (series : List SeriesMeta) (prev : List String),
      (prev.filter (fun id => (visibleIds series).contains id) ≠ [] →
        reconcileSelected series prev
          = prev.filter (fun id => (visibleIds series).contains id)) ∧
      (∀ id, id ∈ prev → id ∈ visibleIds series → id ∈ reconcileSelected series prev) ∧
      (prev.filter (fun id => (visibleIds series).contains id) = [] →
        reconcileSelected series prev
          = (visibleIds series).take (min 3 (visibleIds series).length)) ∧
      (visibleIds series ≠ [] → reconcileSelected series prev ≠ []) := by
  intro series prev
  have key : reconcileSelected series prev
      = if (prev.filter (fun id => (visibleIds series).contains id)).length ≠ 0 then
          prev.filter (fun id => (visibleIds series).contains id)
        else (visibleIds series).take (min 3 (visibleIds series).length) := rfl
  refine ⟨?_, ?_, ?_, ?_⟩
  · intro h
    have hl : (prev.filter (fun id => (visibleIds series).contains id)).length ≠ 0 := by
      simpa [List.length_eq_zero] using h
    rw [key, if_pos hl]
  · intro id hmem hvis
    have hfil : id ∈ prev.filter (fun id => (visibleIds series).contains id) :=
      List.mem_filter.mpr ⟨hmem, by simpa using hvis⟩
    by_cases hl : (prev.filter (fun id => (visibleIds series).contains id)).length = 0
    · rw [List.length_eq_zero] at hl
      rw [hl] at hfil
      exact absurd hfil (List.not_mem_nil id)
    · rw [key, if_pos hl]
      exact hfil
  · intro h
    rw [key, if_neg (by rw [h]; simp)]
  · intro hne
    have hlen : 0 < (visibleIds series).length := List.length_pos.mpr hne
    by_cases hl : (prev.filter (fun id => (visibleIds series).contains id)).length = 0
    · rw [key, if_neg (by omega)]
      intro htake
      have hlen2 := congrArg List.length htake
      rw [List.length_take] at hlen2
      simp only [List.length_nil] at hlen2
      omega
    · rw [key, if_pos hl]
      intro hnil
      exact hl (by rw [hnil]; rfl)

/-- C10 (implicit): `toggleSeriesVisible` always filters the toggled id out
of the multi-series selection, in both toggle directions; therefore a
re-shown column can re-enter the selection only through the
empty-selection auto-populate branch of the selection reconciler (or a
later explicit selection toggle), never merely by being shown. -/
theorem c10_toggle_always_deselects :
    ∀ (id : String) (series : List SeriesMeta) (selected : List String),
      (toggleSeriesVisible id series selected).2
          = selected.filter (fun sid => sid != id) ∧
      id ∉ (toggleSeriesVisible id series selected).2 ∧
      (id ∈ reconcileSelected (toggleSeriesVisible id series selected).1
              (toggleSeriesVisible id series selected).2 →
        (toggleSeriesVisible id series selected).2.filter
            (fun x => (visibleIds (toggleSeriesVisible id series selected).1).contains x)
          = [] ∧
        reconcileSelected (toggleSeriesVisible id series selected).1
            (toggleSeriesVisible id series selected).2
          = (visibleIds (toggleSeriesVisible id series selected).1).take
              (min 3 (visibleIds (toggleSeriesVisible id series selected).1).length)) := by
  intro id series selected
  have hnotmem : id ∉ (toggleSeriesVisible id series selected).2 := by
    simp [toggleSeriesVisible, List.mem_filter]
  have key : reconcileSelected (toggleSeriesVisible id series selected).1
        (toggleSeriesVisible id series selected).2
      = if ((toggleSeriesVisible id series selected).2.filter
            (fun x => (visibleIds (toggleSeriesVisible id series selected).1).contains x)).length
            ≠ 0 then
          (toggleSeriesVisible id series selected).2.filter
            (fun x => (visibleIds (toggleSeriesVisible id series selected).1).contains x)
        else (visibleIds (toggleSeriesVisible id series selected).1).take
            (min 3 (visibleIds (toggleSeriesVisible id series selected).1).length) := rfl
  refine ⟨rfl, hnotmem, ?_⟩
  intro hmem
  by_cases hl : ((toggleSeriesVisible id series selected).2.filter
      (fun x => (visibleIds (toggleSeriesVisible id series selected).1).contains x)).length = 0
  · rw [List.length_eq_zero] at hl
    exact ⟨hl, by rw [key, if_neg (by rw [hl]; simp)]⟩
  · exfalso
    rw [key, if_pos hl] at hmem
    exact hnotmem (List.mem_filter.mp hmem).1

/-- C2: when a single-column mapping slot names a column that is not among
the visible ids, the reconciler resets `pieSeriesColumn`,
`histogramColumn` and `scatterYColumn` to the first visible column id in
registry order (the empty sentinel when none is visible), resets the label
column to the row-key column `'key'`, and keeps a slot that is still
visible; concretely, with `Revenue` visible and `COGS` hidden while
`scatterYColumn = 'COGS'`, the pass resets `scatterYColumn` to `Revenue`
and the "Selected Y axis series hidden" warning condition no longer
holds. -/
theorem c2_reconciler_reset_targets :
    ∀ (series : List SeriesMeta) (m : Mapping),
      ((visibleIds series).contains m.pieSeriesColumn = false →
        (reconcileMappings series m).pieSeriesColumn = (visibleIds series).headD "") ∧
      ((visibleIds series).contains m.histogramColumn = false →
        (reconcileMappings series m).histogramColumn = (visibleIds series).headD "") ∧
      ((visibleIds series).contains m.scatterYColumn = false →
        (reconcileMappings series m).scatterYColumn = (visibleIds series).headD "") ∧
      (m.labelColumn ≠ "key" → (visibleIds series).contains m.labelColumn = false →
        (reconcileMappings series m).labelColumn = "key") ∧
      ((visibleIds series).contains m.scatterYColumn = true →
        (reconcileMappings series m).scatterYColumn = m.scatterYColumn) ∧
      (reconcileMappings c2Series c2Mapping).scatterYColumn = "Revenue" ∧
      hiddenYWarning c2Series (reconcileMappings c2Series c2Mapping).scatterYColumn
        = false := by
  intro series m
  refine ⟨?_, ?_, ?_, ?_, ?_, by decide, by decide⟩
  · intro h
    have h' : m.pieSeriesColumn ∉ visibleIds series := by simpa using h
    simp [reconcileMappings, h']
  · intro h
    have h' : m.histogramColumn ∉ visibleIds series := by simpa using h
    simp [reconcileMappings, h']
  · intro h
    have h' : m.scatterYColumn ∉ visibleIds series := by simpa using h
    simp [reconcileMappings, h']
  · intro h1 h2
    have h' : m.labelColumn ∉ visibleIds series := by simpa using h2
    simp [reconcileMappings, h1, h']
  · intro h
    have h' : m.scatterYColumn ∈ visibleIds series := by simpa using h
    simp [reconcileMappings, h']

/-- Helper: the committing branch of `commitRenameSeries`, as one equation. -/
theorem commitRenameSeries_commits (eid : String) (v : String)
    (series : List SeriesMeta) (h1 : jsTrim v ≠ "")
    (h2 : series.any (fun s => s.id != eid && jsToLower s.label == jsToLower (jsTrim v))
      = false) :
    commitRenameSeries (some eid) v series
      = series.map (fun s => if s.id = eid then { s with label := jsTrim v } else s) := by
  simp only [commitRenameSeries]
  rw [if_neg h1, h2]
  simp

/-- Helper: a rename commit never changes the sequence of column ids. -/
theorem commitRenameSeries_map_id (e : Option String) (v : String)
    (series : List SeriesMeta) :
    (commitRenameSeries e v series).map (fun s => s.id) = series.map (fun s => s.id) := by
  cases e with
  | none => rfl
  | some eid =>
    by_cases h1 : jsTrim v = ""
    · unfold commitRenameSeries
      simp [h1]
    · by_cases h2 :
        series.any (fun s => s.id != eid && jsToLower s.label == jsToLower (jsTrim v)) = true
      · unfold commitRenameSeries
        simp [h1, h2]
      · rw [Bool.not_eq_true] at h2
        rw [commitRenameSeries_commits eid v series h1 h2, List.map_map]
        refine List.map_congr_left ?_
        intro s _
        by_cases hs : s.id = eid <;> simp [hs]

/-- Helper: a rename commit preserves pairwise case-insensitive
distinctness of the labels (given the globally unique column ids). -/
theorem commitRenameSeries_labels_nodup (e : Option String) (v : String)
    (series : List SeriesMeta)
    (hid : (series.map (fun s => s.id)).Nodup)
    (hlab : (series.map (fun s => jsToLower s.label)).Nodup) :
    ((commitRenameSeries e v series).map (fun s => jsToLower s.label)).Nodup := by
  cases e with
  | none => exact hlab
  | some eid =>
    by_cases h1 : jsTrim v = ""
    · unfold commitRenameSeries
      simpa [h1] using hlab
    · by_cases h2 :
        series.any (fun s => s.id != eid && jsToLower s.label == jsToLower (jsTrim v)) = true
      · unfold commitRenameSeries
        simpa [h1, h2] using hlab
      · rw [Bool.not_eq_true] at h2
        have hside : ∀ s ∈ series, s.id ≠ eid → jsToLower s.label ≠ jsToLower (jsTrim v) := by
          intro s hs hne heq
          have := List.any_eq_false.mp h2 s hs
          exact this (by simp [hne, heq])
        rw [commitRenameSeries_commits eid v series h1 h2, List.map_map]
        rw [List.Nodup, List.pairwise_map]
        rw [List.Nodup, List.pairwise_map] at hid hlab
        refine (hid.and hlab).imp_of_mem ?_
        intro a b ha hb hab
        rcases hab with ⟨hneid, hnelab⟩
        by_cases haid : a.id = eid
        · by_cases hbid : b.id = eid
          · exact absurd (haid.trans hbid.symm) hneid
          · simp only [Function.comp, if_pos haid, if_neg hbid]
            exact fun hcon => hside b hb hbid hcon.symm
        · by_cases hbid : b.id = eid
          · simp only [Function.comp, if_neg haid, if_pos hbid]
            exact fun hcon => hside a ha haid hcon
          · simp only [Function.comp, if_neg haid, if_neg hbid]
            exact hnelab

/-- Helper: any sequence of rename commits keeps the lowered labels
pairwise distinct. -/
theorem commitRenameSeries_foldl_nodup :
    ∀ (renames : List (Option String × String)) (series : List SeriesMeta),
      (series.map (fun s => s.id)).Nodup →
      (series.map (fun s => jsToLower s.label)).Nodup →
      ((renames.foldl (fun acc op => commitRenameSeries op.1 op.2 acc) series).map
          (fun s => jsToLower s.label)).Nodup := by
  intro renames
  induction renames with
  | nil => intro series _ hlab; simpa using hlab
  | cons op rest ih =>
    intro series hid hlab
    simp only [List.foldl_cons]
    exact ih _ (by rw [commitRenameSeries_map_id]; exact hid)
      (commitRenameSeries_labels_nodup op.1 op.2 series hid hlab)

/-- C5: a column rename commits the trimmed label exactly when it is
non-empty and does not case-insensitively collide with another column's
label, and otherwise leaves the registry unchanged; consequently, from a
registry with unique ids and pairwise case-insensitively distinct labels,
no sequence of rename operations ever produces two case-insensitively
equal labels at rest. -/
theorem c5_rename_label_uniqueness :
    ∀ (editingValue : String) (series : List SeriesMeta) (eid : String),
      (commitRenameSeries none editingValue series = series) ∧
      (jsTrim editingValue = "" →
        commitRenameSeries (some eid) editingValue series = series) ∧
      ((series.any fun s =>
          s.id != eid && jsToLower s.label == jsToLower (jsTrim editingValue)) = true →
        commitRenameSeries (some eid) editingValue series = series) ∧
      (jsTrim editingValue ≠ "" →
       (series.any fun s =>
          s.id != eid && jsToLower s.label == jsToLower (jsTrim editingValue)) = false →
        commitRenameSeries (some eid) editingValue series
          = series.map (fun s =>
              if s.id = eid then { s with label := jsTrim editingValue } else s)) ∧
      ((series.map (fun s => s.id)).Nodup →
       (series.map (fun s => jsToLower s.label)).Nodup →
       ∀ renames : List (Option String × String),
         ((renames.foldl (fun acc op => commitRenameSeries op.1 op.2 acc) series).map
             (fun s => jsToLower s.label)).Nodup) := by
  intro editingValue series eid
  refine ⟨rfl, ?_, ?_, ?_, ?_⟩
  · intro h
    simp only [commitRenameSeries]
    rw [if_pos h]
  · intro h
    by_cases h1 : jsTrim editingValue = ""
    · simp only [commitRenameSeries]
      rw [if_pos h1]
    · simp only [commitRenameSeries]
      rw [if_neg h1, h]
      simp
  · intro h1 h2
    exact commitRenameSeries_commits eid editingValue series h1 h2
  · intro hid hlab renames
    exact commitRenameSeries_foldl_nodup renames series hid hlab

/-- Visible row holding the value `n` in column `"V"`. -/
def histRow (n : ℚ) : DataRow := ⟨Value.num n, [("V", Value.num n)], false⟩

/-- Rows whose `"V"` column holds the values `1..10`. -/
def histRows10 : List DataRow :=
  [histRow 1, histRow 2, histRow 3, histRow 4, histRow 5,
   histRow 6, histRow 7, histRow 8, histRow 9, histRow 10]

/-- Rows whose `"V"` column holds the single distinct value `5`. -/
def histRowsConst : List DataRow := [histRow 5, histRow 5, histRow 5]

set_option maxRecDepth 8000 in
/-- C7: histogram binning over `[1..10]` with 5 bins uses
`binSize = (10-1)/5 = 1.8`, yielding boundaries `1–2.8, 2.8–4.6, 4.6–6.4,
6.4–8.2, 8.2–10` with two values in each bin (the maximum value's index
`floor((10-1)/1.8) = 5` is clamped into bin 4); and over a single distinct
value the zero quotient `(max-min)/binCount` is replaced by a bin size of
`1`, every value landing in bin 0. -/
theorem c7_histogram_binning :
    histogramBinsFor histRows10 "V" 5
        = some [⟨1, 2.8, 2⟩, ⟨2.8, 4.6, 2⟩, ⟨4.6, 6.4, 2⟩, ⟨6.4, 8.2, 2⟩, ⟨8.2, 10, 2⟩] ∧
      histogramBinsFor histRowsConst "V" 3 = some [⟨5, 6, 3⟩, ⟨6, 7, 0⟩, ⟨7, 8, 0⟩] := by
  constructor
  · with_unfolding_all decide
  · with_unfolding_all decide

/-- Registry after the user hides `Revenue` (leaving `COGS` visible). -/
def c1Series : List SeriesMeta :=
  [⟨"Revenue", "Revenue", "#ef4444", false⟩, ⟨"COGS", "COGS", "#f59e0b", true⟩]

/-- Mapping state where `Revenue` had been picked (while visible) as the
scatter size, scatter color and bar color column before being hidden. -/
def c1Mapping : Mapping :=
  ⟨"key", "COGS", "COGS", "COGS", "key", "Revenue", "Revenue", "Revenue"⟩

/-- C1 evidence: after the reconciler pass that follows hiding `Revenue`,
the non-empty `scatterSizeColumn`, `scatterColorColumn` and
`barColorColumn` slots still name `Revenue`, a registry column whose
visible flag is false — the dangling reference persists past the pass for
these slots (the effect at App.tsx:335-341 never touches them). -/
theorem c1_color_size_slots_dangle :
    (reconcileMappings c1Series c1Mapping).scatterSizeColumn = "Revenue" ∧
    (reconcileMappings c1Series c1Mapping).scatterColorColumn = "Revenue" ∧
    (reconcileMappings c1Series c1Mapping).barColorColumn = "Revenue" ∧
    "Revenue" ≠ "" ∧
    (visibleIds c1Series).contains "Revenue" = false ∧
    (c1Series.any fun s => s.id == "Revenue" && !s.visible) = true := by
  refine ⟨rfl, rfl, rfl, by decide, by decide, by decide⟩

/-- Row store of the duplicate-key scenario: rows keyed `2019` and `2020`. -/
def c4Rows : List DataRow :=
  [⟨Value.num 2019, [("Revenue", Value.num 120)], false⟩,
   ⟨Value.num 2020, [("Revenue", Value.num 135)], false⟩]

set_option maxRecDepth 8000 in
/-- C4 evidence: with rows keyed `2019` and `2020`, committing the row-key
rename of row 1 to the input `'2019.0'` passes the duplicate check (which
compares `String(r.key)` with the raw input string `'2019.0'`), stores the
parsed number `2019`, and leaves the store with two rows whose keys both
string-render as `'2019'` — the uniqueness invariant is violated. The
inputs `'2019'` and a blank commit are correctly rejected as no-ops. -/
theorem c4_rowkey_rename_duplicates :
    (c4Rows.map (fun r => jsString r.key)).Nodup ∧
    commitEditRowHeader (some 1) "2019.0" "key" c4Rows
      = [⟨Value.num 2019, [("Revenue", Value.num 120)], false⟩,
         ⟨Value.num 2019, [("Revenue", Value.num 135)], false⟩] ∧
    ¬ ((commitEditRowHeader (some 1) "2019.0" "key" c4Rows).map
        (fun r => jsString r.key)).Nodup ∧
    commitEditRowHeader (some 1) "2019" "key" c4Rows = c4Rows ∧
    commitEditRowHeader (some 1) "   " "key" c4Rows = c4Rows := by
  refine ⟨by decide, by with_unfolding_all decide, by with_unfolding_all decide,
    by with_unfolding_all decide, by with_unfolding_all decide⟩

/-- Helper: `findIndex` over a list whose prefix all fails the predicate and
whose next element satisfies it. -/
theorem findIdx_after_front {α : Type} (p : α → Bool) (l1 : List α) (a : α)
    (l2 : List α) (h : ∀ x ∈ l1, p x = false) (ha : p a = true) :
    (l1 ++ a :: l2).findIdx? p = some l1.length := by
  induction l1 with
  | nil => simp [List.findIdx?_cons, ha]
  | cons x xs ih =>
    have hx : p x = false := h x (by simp)
    have ih2 := ih (fun y hy => h y (by simp [hy]))
    simp [List.findIdx?_cons, hx, ih2]

/-- Helper: splicing out the element right after a prefix. -/
theorem eraseIdx_after_front {α : Type} (l1 : List α) (a : α) (l2 : List α) :
    (l1 ++ a :: l2).eraseIdx l1.length = l1 ++ l2 := by
  induction l1 with
  | nil => rfl
  | cons x xs ih => simpa using ih

/-- Helper: splicing an element in right after a prefix. -/
theorem insertIdx_after_front {α : Type} (l1 : List α) (a : α) (l2 : List α) :
    (l1 ++ l2).insertIdx l1.length a = l1 ++ a :: l2 := by
  induction l1 with
  | nil => rfl
  | cons x xs ih => simpa [List.insertIdx_succ_cons] using ih

/-- Helper: reading the element right after a prefix. -/
theorem getElem?_after_front {α : Type} (l1 : List α) (a : α) (l2 : List α) :
    (l1 ++ a :: l2)[l1.length]? = some a := by
  induction l1 with
  | nil => simp
  | cons x xs ih => simpa using ih

/-- Registry of the reorder scenario: `[Revenue, COGS, R&D]`. -/
def c8Series : List SeriesMeta :=
  [⟨"Revenue", "Revenue", "#ef4444", true⟩, ⟨"COGS", "COGS", "#f59e0b", true⟩,
   ⟨"R&D", "R&D", "#10b981", true⟩]

/-- C8: a column drop is a no-op when no drag is in progress, when source
and target coincide, or when either id is absent; otherwise the dragged
column is moved to the target's former index, and the move is
index-stable: removing the moved column from the result recovers exactly
the original list without it, so every other pair keeps its relative
order. Concretely, dropping `COGS` on `Revenue` in `[Revenue, COGS, R&D]`
yields `[COGS, Revenue, R&D]`. -/
theorem c8_column_reorder :
    ∀ (series : List SeriesMeta) (sourceId targetId : String) (i j : ℕ)
      (moved : SeriesMeta),
      (onSeriesDrop none targetId series = series) ∧
      (onSeriesDrop (some targetId) targetId series = series) ∧
      (series.findIdx? (fun s => s.id == sourceId) = none →
        onSeriesDrop (some sourceId) targetId series = series) ∧
      (series.findIdx? (fun s => s.id == targetId) = none →
        onSeriesDrop (some sourceId) targetId series = series) ∧
      (sourceId ≠ targetId →
       series.findIdx? (fun s => s.id == sourceId) = some i →
       series.findIdx? (fun s => s.id == targetId) = some j →
       series[i]? = some moved →
        onSeriesDrop (some sourceId) targetId series
            = (series.eraseIdx i).insertIdx j moved ∧
          (onSeriesDrop (some sourceId) targetId series)[j]? = some moved ∧
          (onSeriesDrop (some sourceId) targetId series).eraseIdx j
            = series.eraseIdx i) ∧
      onSeriesDrop (some "COGS") "Revenue" c8Series
        = [⟨"COGS", "COGS", "#f59e0b", true⟩, ⟨"Revenue", "Revenue", "#ef4444", true⟩,
           ⟨"R&D", "R&D", "#10b981", true⟩] := by
  intro series sourceId targetId i j moved
  refine ⟨rfl, by simp [onSeriesDrop], ?_, ?_, ?_, by decide⟩
  · intro h
    by_cases he : sourceId = targetId
    · simp [onSeriesDrop, he]
    · simp only [onSeriesDrop, if_neg he, h]
  · intro h
    by_cases he : sourceId = targetId
    · simp [onSeriesDrop, he]
    · simp only [onSeriesDrop, if_neg he, h]
      cases series.findIdx? (fun s => s.id == sourceId) <;> rfl
  · intro hne hi hj hmoved
    have heq : onSeriesDrop (some sourceId) targetId series
        = (series.eraseIdx i).insertIdx j moved := by
      simp only [onSeriesDrop, if_neg hne, hi, hj, hmoved]
    have hilt : i < series.length :=
      (List.findIdx?_eq_some_iff_findIdx_eq.mp hi).1
    have hjlt : j < series.length :=
      (List.findIdx?_eq_some_iff_findIdx_eq.mp hj).1
    have hjle : j ≤ (series.eraseIdx i).length := by
      rw [List.length_eraseIdx_of_lt hilt]
      omega
    refine ⟨heq, ?_, ?_⟩
    · rw [heq]
      have hlt : j < ((series.eraseIdx i).insertIdx j moved).length := by
        rw [List.length_insertIdx _ _ hjle]
        omega
      rw [List.getElem?_eq_getElem hlt, List.getElem_insertIdx_self _ _ _ hjle]
    · rw [heq, List.eraseIdx_insertIdx]

/-- Helper: what a list shaped `prefix ++ [u, w] ++ suffix` with injectively
mapped keys says about the keys of the prefix and of the adjacent pair. -/
theorem nodup_adjacent_facts {α β : Type} (f : α → β) (l1 l2 : List α) (a b : α)
    (h : ((l1 ++ a :: b :: l2).map f).Nodup) :
    f a ≠ f b ∧ (∀ x ∈ l1, f x ≠ f a) ∧ (∀ x ∈ l1, f x ≠ f b) := by
  rw [List.map_append, List.map_cons, List.map_cons, List.nodup_append] at h
  rcases h with ⟨-, hr, hdis⟩
  rcases List.nodup_cons.mp hr with ⟨hamem, hr2⟩
  rcases List.nodup_cons.mp hr2 with ⟨hbmem, -⟩
  refine ⟨?_, ?_, ?_⟩
  · intro hcon
    exact hamem (by simp [hcon])
  · intro x hx hcon
    exact hdis (List.mem_map_of_mem f hx) (by simp [hcon])
  · intro x hx hcon
    exact hdis (List.mem_map_of_mem f hx) (by simp [hcon])

/-- Helper: dropping a column onto its immediate successor swaps the two. -/
theorem onSeriesDrop_adjacent (l1 l2 : List SeriesMeta) (a b : SeriesMeta)
    (hab : a.id ≠ b.id)
    (ha1 : ∀ x ∈ l1, x.id ≠ a.id) (hb1 : ∀ x ∈ l1, x.id ≠ b.id) :
    onSeriesDrop (some a.id) b.id (l1 ++ a :: b :: l2) = l1 ++ b :: a :: l2 := by
  have hia : (l1 ++ a :: b :: l2).findIdx? (fun s => s.id == a.id) = some l1.length := by
    refine findIdx_after_front _ l1 a (b :: l2) ?_ (by simp)
    intro x hx
    simp [ha1 x hx]
  have hib : (l1 ++ a :: b :: l2).findIdx? (fun s => s.id == b.id)
      = some (l1.length + 1) := by
    have hsh : l1 ++ a :: b :: l2 = (l1 ++ [a]) ++ b :: l2 := by simp
    rw [hsh]
    have := findIdx_after_front (fun s => s.id == b.id) (l1 ++ [a]) b l2 ?_ (by simp)
    · simpa using this
    · intro x hx
      rcases List.mem_append.mp hx with hx1 | hx2
      · simp [hb1 x hx1]
      · have : x = a := by simpa using hx2
        subst this
        simp [hab]
  have hmv : (l1 ++ a :: b :: l2)[l1.length]? = some a := getElem?_after_front l1 a _
  simp only [onSeriesDrop, if_neg hab, hia, hib, hmv]
  rw [eraseIdx_after_front l1 a (b :: l2)]
  have hsh2 : l1 ++ b :: l2 = (l1 ++ [b]) ++ l2 := by simp
  rw [hsh2]
  have hlen : l1.length + 1 = (l1 ++ [b]).length := by simp
  rw [hlen, insertIdx_after_front (l1 ++ [b]) a l2]
  simp

/-- Helper: dropping a column onto its immediate predecessor swaps the two. -/
theorem onSeriesDrop_adjacent_rev (l1 l2 : List SeriesMeta) (a b : SeriesMeta)
    (hab : a.id ≠ b.id)
    (ha1 : ∀ x ∈ l1, x.id ≠ a.id) (hb1 : ∀ x ∈ l1, x.id ≠ b.id) :
    onSeriesDrop (some a.id) b.id (l1 ++ b :: a :: l2) = l1 ++ a :: b :: l2 := by
  have hia : (l1 ++ b :: a :: l2).findIdx? (fun s => s.id == a.id)
      = some (l1.length + 1) := by
    have hsh : l1 ++ b :: a :: l2 = (l1 ++ [b]) ++ a :: l2 := by simp
    rw [hsh]
    have := findIdx_after_front (fun s => s.id == a.id) (l1 ++ [b]) a l2 ?_ (by simp)
    · simpa using this
    · intro x hx
      rcases List.mem_append.mp hx with hx1 | hx2
      · simp [ha1 x hx1]
      · have : x = b := by simpa using hx2
        subst this
        simp [Ne.symm hab]
  have hib : (l1 ++ b :: a :: l2).findIdx? (fun s => s.id == b.id) = some l1.length := by
    refine findIdx_after_front _ l1 b (a :: l2) ?_ (by simp)
    intro x hx
    simp [hb1 x hx]
  have hmv : (l1 ++ b :: a :: l2)[l1.length + 1]? = some a := by
    have hsh : l1 ++ b :: a :: l2 = (l1 ++ [b]) ++ a :: l2 := by simp
    have hlen : l1.length + 1 = (l1 ++ [b]).length := by simp
    rw [hsh, hlen]
    exact getElem?_after_front (l1 ++ [b]) a l2
  simp only [onSeriesDrop, if_neg hab, hia, hib, hmv]
  have hsh : l1 ++ b :: a :: l2 = (l1 ++ [b]) ++ a :: l2 := by simp
  have hlen : l1.length + 1 = (l1 ++ [b]).length := by simp
  rw [hsh, hlen, eraseIdx_after_front (l1 ++ [b]) a l2]
  have hsh2 : (l1 ++ [b]) ++ l2 = l1 ++ b :: l2 := by simp
  rw [hsh2, insertIdx_after_front l1 a (b :: l2)]

/-- Helper: the committing branch of `onRowDrop`, with the insertion-index
arithmetic discharged by hypothesis. -/
theorem onRowDrop_commits (rows : List DataRow) (sk tk : Value) (pos : Option DropPos)
    (i j ins : ℕ) (moved : DataRow)
    (hi : rows.findIdx? (fun r => r.key == sk) = some i)
    (hj : rows.findIdx? (fun r => r.key == tk) = some j)
    (hmoved : rows[i]? = some moved)
    (hins : (if i < j + (if pos = some DropPos.below then 1 else 0)
             then j + (if pos = some DropPos.below then 1 else 0) - 1
             else j + (if pos = some DropPos.below then 1 else 0)) = ins)
    (hne : ins ≠ i) :
    onRowDrop (some sk) pos tk rows = (rows.eraseIdx i).insertIdx ins moved := by
  simp only [onRowDrop, hi, hj, hmoved, hins, if_neg hne]

/-- Helper: dropping a row on the lower half of its immediate successor
swaps the two rows. -/
theorem onRowDrop_below_adjacent (r1 r2 : List DataRow) (x y : DataRow)
    (hxy : x.key ≠ y.key)
    (hx1 : ∀ r ∈ r1, r.key ≠ x.key) (hy1 : ∀ r ∈ r1, r.key ≠ y.key) :
    onRowDrop (some x.key) (some DropPos.below) y.key (r1 ++ x :: y :: r2)
      = r1 ++ y :: x :: r2 := by
  have hix : (r1 ++ x :: y :: r2).findIdx? (fun r => r.key == x.key)
      = some r1.length := by
    refine findIdx_after_front _ r1 x (y :: r2) ?_ (by simp)
    intro r hr
    simp [hx1 r hr]
  have hiy : (r1 ++ x :: y :: r2).findIdx? (fun r => r.key == y.key)
      = some (r1.length + 1) := by
    have hsh : r1 ++ x :: y :: r2 = (r1 ++ [x]) ++ y :: r2 := by simp
    rw [hsh]
    have := findIdx_after_front (fun r => r.key == y.key) (r1 ++ [x]) y r2 ?_ (by simp)
    · simpa using this
    · intro r hr
      rcases List.mem_append.mp hr with hr1 | hr2
      · simp [hy1 r hr1]
      · have : r = x := by simpa using hr2
        subst this
        simp [hxy]
  have hmv : (r1 ++ x :: y :: r2)[r1.length]? = some x := getElem?_after_front r1 x _
  rw [onRowDrop_commits (r1 ++ x :: y :: r2) x.key y.key (some DropPos.below)
      r1.length (r1.length + 1) (r1.length + 1) x hix hiy hmv ?_ (by omega)]
  · rw [eraseIdx_after_front r1 x (y :: r2)]
    have hsh2 : r1 ++ y :: r2 = (r1 ++ [y]) ++ r2 := by simp
    have hlen : r1.length + 1 = (r1 ++ [y]).length := by simp
    rw [hsh2, hlen, insertIdx_after_front (r1 ++ [y]) x r2]
    simp
  · rw [if_pos rfl, if_pos (by omega)]
    omega

/-- Helper: dropping a row on the upper half of its immediate predecessor
swaps the two rows. -/
theorem onRowDrop_above_adjacent (r1 r2 : List DataRow) (x y : DataRow)
    (hxy : x.key ≠ y.key)
    (hx1 : ∀ r ∈ r1, r.key ≠ x.key) (hy1 : ∀ r ∈ r1, r.key ≠ y.key) :
    onRowDrop (some x.key) (some DropPos.above) y.key (r1 ++ y :: x :: r2)
      = r1 ++ x :: y :: r2 := by
  have hix : (r1 ++ y :: x :: r2).findIdx? (fun r => r.key == x.key)
      = some (r1.length + 1) := by
    have hsh : r1 ++ y :: x :: r2 = (r1 ++ [y]) ++ x :: r2 := by simp
    rw [hsh]
    have := findIdx_after_front (fun r => r.key == x.key) (r1 ++ [y]) x r2 ?_ (by simp)
    · simpa using this
    · intro r hr
      rcases List.mem_append.mp hr with hr1 | hr2
      · simp [hx1 r hr1]
      · have : r = y := by simpa using hr2
        subst this
        simp [Ne.symm hxy]
  have hiy : (r1 ++ y :: x :: r2).findIdx? (fun r => r.key == y.key)
      = some r1.length := by
    refine findIdx_after_front _ r1 y (x :: r2) ?_ (by simp)
    intro r hr
    simp [hy1 r hr]
  have hmv : (r1 ++ y :: x :: r2)[r1.length + 1]? = some x := by
    have hsh : r1 ++ y :: x :: r2 = (r1 ++ [y]) ++ x :: r2 := by simp
    have hlen : r1.length + 1 = (r1 ++ [y]).length := by simp
    rw [hsh, hlen]
    exact getElem?_after_front (r1 ++ [y]) x r2
  rw [onRowDrop_commits (r1 ++ y :: x :: r2) x.key y.key (some DropPos.above)
      (r1.length + 1) r1.length r1.length x hix hiy hmv ?_ (by omega)]
  · have hsh : r1 ++ y :: x :: r2 = (r1 ++ [y]) ++ x :: r2 := by simp
    have hlen : r1.length + 1 = (r1 ++ [y]).length := by simp
    rw [hsh, hlen, eraseIdx_after_front (r1 ++ [y]) x r2]
    have hsh2 : (r1 ++ [y]) ++ r2 = r1 ++ y :: r2 := by simp
    rw [hsh2, insertIdx_after_front r1 x (y :: r2)]
  · have hpos : (if (some DropPos.above = some DropPos.below) then 1 else 0) = 0 := by simp
    rw [hpos, if_neg (by omega)]
    omega

/-- C9: single-step reorder round-trips. Dropping a column onto its
adjacent neighbor and then dropping it onto that neighbor again restores
the original registry order; dropping a row below its successor and then
above it (and symmetrically above its predecessor and then below it)
restores the original row order, the removal-index adjustment included. -/
theorem c9_single_step_roundtrip :
    ∀ (l1 l2 : List SeriesMeta) (a b : SeriesMeta) (r1 r2 : List DataRow)
      (x y : DataRow),
      (((l1 ++ a :: b :: l2).map (fun s => s.id)).Nodup →
        onSeriesDrop (some a.id) b.id
            (onSeriesDrop (some a.id) b.id (l1 ++ a :: b :: l2))
          = l1 ++ a :: b :: l2) ∧
      (((r1 ++ x :: y :: r2).map (fun r => r.key)).Nodup →
        onRowDrop (some x.key) (some DropPos.above) y.key
            (onRowDrop (some x.key) (some DropPos.below) y.key (r1 ++ x :: y :: r2))
          = r1 ++ x :: y :: r2) ∧
      (((r1 ++ y :: x :: r2).map (fun r => r.key)).Nodup →
        onRowDrop (some x.key) (some DropPos.below) y.key
            (onRowDrop (some x.key) (some DropPos.above) y.key (r1 ++ y :: x :: r2))
          = r1 ++ y :: x :: r2) := by
  intro l1 l2 a b r1 r2 x y
  refine ⟨?_, ?_, ?_⟩
  · intro h
    obtain ⟨hab, ha1, hb1⟩ :=
      nodup_adjacent_facts (fun s => s.id) l1 l2 a b h
    rw [onSeriesDrop_adjacent l1 l2 a b hab
        (fun s hs => ha1 s hs) (fun s hs => hb1 s hs),
      onSeriesDrop_adjacent_rev l1 l2 a b hab
        (fun s hs => ha1 s hs) (fun s hs => hb1 s hs)]
  · intro h
    obtain ⟨hxy, hx1, hy1⟩ :=
      nodup_adjacent_facts (fun r => r.key) r1 r2 x y h
    rw [onRowDrop_below_adjacent r1 r2 x y hxy hx1 hy1,
      onRowDrop_above_adjacent r1 r2 x y hxy hx1 hy1]
  · intro h
    obtain ⟨hyx, hy1, hx1⟩ :=
      nodup_adjacent_facts (fun r => r.key) r1 r2 y x h
    rw [onRowDrop_above_adjacent r1 r2 x y (fun hc => hyx hc.symm) hx1 hy1,
      onRowDrop_below_adjacent r1 r2 x y (fun hc => hyx hc.symm) hx1 hy1]

/-- Helper: the registry with exactly the columns whose id lies in `t`
visibility-flipped once. -/
def flipSeries (t : List String) (series : List SeriesMeta) : List SeriesMeta :=
  series.map (fun s => if t.contains s.id then { s with visible := !s.visible } else s)

/-- Helper: flipping nothing is the identity. -/
theorem flipSeries_nil (series : List SeriesMeta) : flipSeries [] series = series := by
  simp [flipSeries]

/-- Helper: toggling a not-yet-flipped column extends the flipped set. -/
theorem toggleVisible_flipSeries (id : String) (t : List String)
    (series : List SeriesMeta) (h : t.contains id = false) :
    toggleVisible id (flipSeries t series) = flipSeries (id :: t) series := by
  have hninT : id ∉ t := by simpa using h
  simp only [toggleVisible, flipSeries, List.map_map]
  refine List.map_congr_left ?_
  intro s _
  by_cases hmem : s.id ∈ t
  · have hs : s.id ≠ id := fun hc => hninT (hc ▸ hmem)
    simp [Function.comp, hmem, hs, List.contains_cons]
  · by_cases hs : s.id = id
    · simp [Function.comp, hmem, hs, hninT, List.contains_cons]
    · simp [Function.comp, hmem, hs, List.contains_cons]

/-- Helper: the flipped registry depends only on membership in the set. -/
theorem flipSeries_congr (t1 t2 : List String) (series : List SeriesMeta)
    (h : ∀ id, id ∈ t1 ↔ id ∈ t2) :
    flipSeries t1 series = flipSeries t2 series := by
  simp only [flipSeries]
  refine List.map_congr_left ?_
  intro s _
  have : t1.contains s.id = t2.contains s.id := by
    by_cases hm : s.id ∈ t1
    · have hm2 := (h s.id).mp hm
      simp [hm, hm2]
    · have hm2 : s.id ∉ t2 := fun hc => hm ((h s.id).mpr hc)
      simp [hm, hm2]
  rw [this]

/-- Helper: the touched set left by a sequence of series-sweep enter events. -/
def touchedAfter (t : List String) : List String → List String
  | [] => t
  | h :: rest => if t.contains h then touchedAfter t rest else touchedAfter (h :: t) rest

/-- Helper: membership in the final touched set. -/
theorem touchedAfter_mem (enters : List String) :
    ∀ (t : List String) (id : String),
      id ∈ touchedAfter t enters ↔ id ∈ t ∨ id ∈ enters := by
  induction enters with
  | nil => intro t id; simp [touchedAfter]
  | cons h rest ih =>
    intro t id
    simp only [touchedAfter]
    by_cases hh : t.contains h = true
    · have hmem : h ∈ t := by simpa using hh
      rw [if_pos hh, ih]
      constructor
      · rintro (h1 | h2)
        · exact Or.inl h1
        · exact Or.inr (List.mem_cons_of_mem _ h2)
      · rintro (h1 | h2)
        · exact Or.inl h1
        · rcases List.mem_cons.mp h2 with rfl | h3
          · exact Or.inl hmem
          · exact Or.inr h3
    · rw [if_neg hh, ih]
      simp only [List.mem_cons]
      tauto

/-- Helper: a series-sweep enter event on an already-touched header changes
nothing. -/
theorem seriesEnter_touched_noop (id : String) (st : SweepSt)
    (h : st.sweepSeriesSet.contains id = true) :
    handleSeriesHeaderMouseEnter id st = st := by
  have hm : id ∈ st.sweepSeriesSet := by simpa using h
  have h2 : ¬ (st.sweepSeriesSet.contains id = false) := by simpa using hm
  simp only [handleSeriesHeaderMouseEnter]
  rw [if_neg (fun hc => h2 hc.2)]

/-- Helper: one newly-touching series-sweep enter event, as an equation. -/
theorem seriesEnter_new (id : String) (st : SweepSt)
    (h1 : st.sweepActive = some SweepKind.series)
    (h : st.sweepSeriesSet.contains id = false) :
    handleSeriesHeaderMouseEnter id st
      = { st with
          series := toggleVisible id st.series
          selectedSeriesIds := st.selectedSeriesIds.filter (fun sid => sid != id)
          sweepSeriesSet := id :: st.sweepSeriesSet } := by
  simp only [handleSeriesHeaderMouseEnter, toggleSeriesVisible]
  rw [if_pos ⟨h1, h⟩]

/-- Helper: folding the enter events of an active series sweep flips exactly
the newly touched headers and records them. -/
theorem seriesSweep_foldl (enters : List String) :
    ∀ (t : List String) (series0 : List SeriesMeta) (st : SweepSt),
      st.sweepActive = some SweepKind.series →
      st.sweepSeriesSet = t →
      st.series = flipSeries t series0 →
      (enters.foldl (fun acc id => handleSeriesHeaderMouseEnter id acc) st).sweepActive
          = some SweepKind.series ∧
        (enters.foldl (fun acc id => handleSeriesHeaderMouseEnter id acc) st).sweepSeriesSet
          = touchedAfter t enters ∧
        (enters.foldl (fun acc id => handleSeriesHeaderMouseEnter id acc) st).series
          = flipSeries (touchedAfter t enters) series0 := by
  induction enters with
  | nil =>
    intro t series0 st h1 h2 h3
    exact ⟨h1, by simpa [touchedAfter] using h2, by simpa [touchedAfter] using h3⟩
  | cons h rest ih =>
    intro t series0 st h1 h2 h3
    simp only [List.foldl_cons, touchedAfter]
    by_cases hh : t.contains h = true
    · rw [if_pos hh, seriesEnter_touched_noop h st (by rw [h2]; exact hh)]
      exact ih t series0 st h1 h2 h3
    · have hf : t.contains h = false := eq_false_of_ne_true hh
      rw [if_neg hh, seriesEnter_new h st h1 (by rw [h2]; exact hf)]
      refine ih (h :: t) series0 _ h1 (by simp [h2]) ?_
      simp only [h3]
      exact toggleVisible_flipSeries h t series0 hf

/-- Helper: the series fold equals replaying the toggle log over the
registry. -/
theorem seriesSweep_foldl_log (enters : List String) :
    ∀ (t : List String) (st : SweepSt),
      st.sweepActive = some SweepKind.series →
      st.sweepSeriesSet = t →
      (enters.foldl (fun acc id => handleSeriesHeaderMouseEnter id acc) st).series
        = (seriesSweepLog t enters).foldl (fun acc id => toggleVisible id acc) st.series := by
  induction enters with
  | nil => intro t st _ _; simp [seriesSweepLog]
  | cons h rest ih =>
    intro t st h1 h2
    simp only [List.foldl_cons, seriesSweepLog]
    by_cases hh : t.contains h = true
    · rw [if_pos hh, seriesEnter_touched_noop h st (by rw [h2]; exact hh)]
      exact ih t st h1 h2
    · have hf : t.contains h = false := eq_false_of_ne_true hh
      rw [if_neg hh, seriesEnter_new h st h1 (by rw [h2]; exact hf), List.foldl_cons]
      exact ih (h :: t) _ h1 (by simp [h2])

/-- Helper: each header appears in the series-sweep toggle log exactly once
if it is newly entered, never otherwise. -/
theorem seriesSweepLog_count (enters : List String) :
    ∀ (t : List String) (id : String),
      (seriesSweepLog t enters).count id
        = if id ∈ enters ∧ id ∉ t then 1 else 0 := by
  induction enters with
  | nil => intro t id; simp [seriesSweepLog]
  | cons h rest ih =>
    intro t id
    simp only [seriesSweepLog]
    by_cases hh : t.contains h = true
    · have hm : h ∈ t := by simpa using hh
      rw [if_pos hh, ih t id]
      by_cases hid : id = h
      · subst hid
        simp [hm]
      · simp [List.mem_cons, hid]
    · have hf : t.contains h = false := eq_false_of_ne_true hh
      have hnm : h ∉ t := by simpa using hf
      rw [if_neg hh]
      by_cases hid : id = h
      · subst hid
        rw [List.count_cons_self, ih (id :: t) id]
        simp [hnm]
      · rw [List.count_cons_of_ne hid, ih (h :: t) id]
        by_cases hmemt : id ∈ t
        · simp [List.mem_cons, hid, hmemt]
        · simp [List.mem_cons, hid, hmemt]

/-- Helper: the key of the row rendered at index `i` (what the row-header
handlers receive alongside the index). -/
def keyAt (rows : List DataRow) (i : ℕ) : Value :=
  ((rows[i]?).map (fun r => r.key)).getD (Value.str "")

/-- Helper: composing two indexed maps. -/
theorem mapIdxFrom_comp {α : Type} (f g : ℕ → α → α) :
    ∀ (k : ℕ) (l : List α),
      mapIdxFrom f k (mapIdxFrom g k l) = mapIdxFrom (fun i a => f i (g i a)) k l := by
  intro k l
  induction l generalizing k with
  | nil => rfl
  | cons a rest ih => simp [mapIdxFrom, ih]

/-- Helper: indexed maps of pointwise equal functions agree. -/
theorem mapIdxFrom_congr {α : Type} (f g : ℕ → α → α)
    (h : ∀ i a, f i a = g i a) :
    ∀ (k : ℕ) (l : List α), mapIdxFrom f k l = mapIdxFrom g k l := by
  intro k l
  induction l generalizing k with
  | nil => rfl
  | cons a rest ih => simp [mapIdxFrom, h, ih]

/-- Helper: the identity indexed map. -/
theorem mapIdxFrom_id {α : Type} :
    ∀ (k : ℕ) (l : List α), mapIdxFrom (fun _ a => a) k l = l := by
  intro k l
  induction l generalizing k with
  | nil => rfl
  | cons a rest ih => simp [mapIdxFrom, ih]

/-- Helper: the row store with exactly the rows at indices in `t` flipped. -/
def flipRows (t : List ℕ) (rows : List DataRow) : List DataRow :=
  mapIdxFrom (fun i r => if t.contains i then { r with hidden := !r.hidden } else r) 0 rows

/-- Helper: flipping no row is the identity. -/
theorem flipRows_nil (rows : List DataRow) : flipRows [] rows = rows := by
  simp only [flipRows, List.contains_nil]
  exact (mapIdxFrom_congr _ _ (fun i a => by simp) 0 rows).trans (mapIdxFrom_id 0 rows)

/-- Helper: hiding a not-yet-flipped row extends the flipped index set. -/
theorem hideRow_flipRows (i : ℕ) (t : List ℕ) (rows : List DataRow)
    (h : i ∉ t) :
    hideRow i (flipRows t rows) = flipRows (i :: t) rows := by
  simp only [hideRow, flipRows]
  rw [mapIdxFrom_comp]
  refine mapIdxFrom_congr _ _ ?_ 0 rows
  intro j r
  by_cases hj : j = i
  · subst hj
    simp [h, List.contains_cons]
  · by_cases hm : j ∈ t
    · simp [hm, hj, List.contains_cons]
    · simp [hm, hj, List.contains_cons]

/-- Helper: the flipped row store depends only on membership in the index
set. -/
theorem flipRows_congr (t1 t2 : List ℕ) (rows : List DataRow)
    (h : ∀ i, i ∈ t1 ↔ i ∈ t2) :
    flipRows t1 rows = flipRows t2 rows := by
  simp only [flipRows]
  refine mapIdxFrom_congr _ _ ?_ 0 rows
  intro i r
  have : t1.contains i = t2.contains i := by
    by_cases hm : i ∈ t1
    · have hm2 := (h i).mp hm
      simp [hm, hm2]
    · have hm2 : i ∉ t2 := fun hc => hm ((h i).mpr hc)
      simp [hm, hm2]
  rw [this]

/-- Helper: a row-sweep enter event on a row whose key is already touched
changes nothing. -/
theorem rowEnter_touched_noop (ri : ℕ) (k : Value) (st : SweepSt)
    (h : st.sweepRowSet.contains k = true) :
    handleRowHeaderMouseEnter ri k st = st := by
  have hm : k ∈ st.sweepRowSet := by simpa using h
  have h2 : ¬ (st.sweepRowSet.contains k = false) := by simpa using hm
  simp only [handleRowHeaderMouseEnter]
  rw [if_neg (fun hc => h2 hc.2)]

/-- Helper: one newly-touching row-sweep enter event, as an equation. -/
theorem rowEnter_new (ri : ℕ) (k : Value) (st : SweepSt)
    (h1 : st.sweepActive = some SweepKind.row)
    (h : st.sweepRowSet.contains k = false) :
    handleRowHeaderMouseEnter ri k st
      = { st with rows := hideRow ri st.rows, sweepRowSet := k :: st.sweepRowSet } := by
  simp only [handleRowHeaderMouseEnter]
  rw [if_pos ⟨h1, h⟩]

/-- Helper: with keys unique, the rendered key determines the row index. -/
theorem keyAt_inj (rows : List DataRow)
    (hnd : (rows.map (fun r => r.key)).Nodup)
    (i j : ℕ) (hi : i < rows.length) (hj : j < rows.length)
    (h : keyAt rows i = keyAt rows j) : i = j := by
  have hi2 : i < (rows.map (fun r => r.key)).length := by simpa using hi
  have hj2 : j < (rows.map (fun r => r.key)).length := by simpa using hj
  have h2 : (rows.map (fun r => r.key))[i] = (rows.map (fun r => r.key))[j] := by
    rw [List.getElem_map, List.getElem_map]
    have e1 : keyAt rows i = rows[i].key := by
      simp [keyAt, List.getElem?_eq_getElem hi]
    have e2 : keyAt rows j = rows[j].key := by
      simp [keyAt, List.getElem?_eq_getElem hj]
    rw [← e1, ← e2]
    exact h
  exact (List.Nodup.getElem_inj_iff hnd).mp h2

/-- Helper: with unique keys, looking a rendered key up in the touched-key
set is looking its index up in the touched-index set. -/
theorem contains_map_keyAt (rows : List DataRow)
    (hnd : (rows.map (fun r => r.key)).Nodup)
    (T : List ℕ) (hT : ∀ j ∈ T, j < rows.length)
    (i : ℕ) (hi : i < rows.length) :
    ((T.map (keyAt rows)).contains (keyAt rows i)) = T.contains i := by
  by_cases hm : i ∈ T
  · have h1 : keyAt rows i ∈ T.map (keyAt rows) := List.mem_map_of_mem _ hm
    simp [h1, hm]
  · have h1 : keyAt rows i ∉ T.map (keyAt rows) := by
      intro hc
      rcases List.mem_map.mp hc with ⟨j, hjT, hkey⟩
      exact hm ((keyAt_inj rows hnd j i (hT j hjT) hi hkey) ▸ hjT)
    simp [h1, hm]

/-- Helper: folding the enter events of an active row sweep flips exactly
the newly touched rows: the final row store is the initial one with some
index set flipped, that set holding precisely the already-touched indices
and the entered indices. -/
theorem rowSweep_foldl (rows0 : List DataRow)
    (hnd : (rows0.map (fun r => r.key)).Nodup) (enters : List (ℕ × Value)) :
    ∀ (T : List ℕ) (st : SweepSt),
      st.sweepActive = some SweepKind.row →
      st.sweepRowSet = T.map (keyAt rows0) →
      st.rows = flipRows T rows0 →
      (∀ j ∈ T, j < rows0.length) →
      (∀ e ∈ enters, e.1 < rows0.length ∧ keyAt rows0 e.1 = e.2) →
      ∃ T2 : List ℕ,
        (∀ j, j ∈ T2 ↔ j ∈ T ∨ j ∈ enters.map Prod.fst) ∧
        (enters.foldl (fun acc e => handleRowHeaderMouseEnter e.1 e.2 acc) st).rows
          = flipRows T2 rows0 := by
  induction enters with
  | nil =>
    intro T st h1 h2 h3 hT hcons
    exact ⟨T, by simp, by simpa using h3⟩
  | cons e rest ih =>
    intro T st h1 h2 h3 hT hcons
    obtain ⟨helt, hekey⟩ := hcons e (by simp)
    simp only [List.foldl_cons]
    by_cases hh : st.sweepRowSet.contains e.2 = true
    · have he1 : e.1 ∈ T := by
        have hc2 : ((T.map (keyAt rows0)).contains (keyAt rows0 e.1)) = true := by
          rw [hekey, ← h2]
          exact hh
        rw [contains_map_keyAt rows0 hnd T hT e.1 helt] at hc2
        simpa using hc2
      rw [rowEnter_touched_noop e.1 e.2 st hh]
      obtain ⟨T2, hm, hr⟩ := ih T st h1 h2 h3 hT
        (fun e2 he2 => hcons e2 (List.mem_cons_of_mem _ he2))
      refine ⟨T2, ?_, hr⟩
      intro j
      rw [hm j, List.map_cons]
      constructor
      · rintro (hj | hj)
        · exact Or.inl hj
        · exact Or.inr (List.mem_cons_of_mem _ hj)
      · rintro (hj | hj)
        · exact Or.inl hj
        · rcases List.mem_cons.mp hj with hj2 | hj2
          · exact Or.inl (hj2 ▸ he1)
          · exact Or.inr hj2
    · have hf : st.sweepRowSet.contains e.2 = false := eq_false_of_ne_true hh
      have he1 : e.1 ∉ T := by
        intro hc
        have hc2 : ((T.map (keyAt rows0)).contains (keyAt rows0 e.1)) = true := by
          rw [contains_map_keyAt rows0 hnd T hT e.1 helt]
          simpa using hc
        rw [hekey, ← h2] at hc2
        exact hh hc2
      rw [rowEnter_new e.1 e.2 st h1 hf]
      have hset : e.2 :: st.sweepRowSet = (e.1 :: T).map (keyAt rows0) := by
        rw [h2, List.map_cons, hekey]
      have hrows : hideRow e.1 st.rows = flipRows (e.1 :: T) rows0 := by
        rw [h3]
        exact hideRow_flipRows e.1 T rows0 he1
      obtain ⟨T2, hm, hr⟩ := ih (e.1 :: T)
        { st with rows := hideRow e.1 st.rows, sweepRowSet := e.2 :: st.sweepRowSet }
        h1 hset hrows
        (by
          intro j hj
          rcases List.mem_cons.mp hj with rfl | hj2
          · exact helt
          · exact hT j hj2)
        (fun e2 he2 => hcons e2 (List.mem_cons_of_mem _ he2))
      refine ⟨T2, ?_, hr⟩
      intro j
      rw [hm j]
      simp only [List.mem_cons, List.map_cons]
      tauto

/-- Helper: the row fold equals replaying the hide log over the row store. -/
theorem rowSweep_foldl_log (enters : List (ℕ × Value)) :
    ∀ (t : List Value) (st : SweepSt),
      st.sweepActive = some SweepKind.row →
      st.sweepRowSet = t →
      (enters.foldl (fun acc e => handleRowHeaderMouseEnter e.1 e.2 acc) st).rows
        = (rowSweepLog t enters).foldl (fun acc i => hideRow i acc) st.rows := by
  induction enters with
  | nil => intro t st _ _; simp [rowSweepLog]
  | cons e rest ih =>
    intro t st h1 h2
    simp only [List.foldl_cons, rowSweepLog]
    by_cases hh : t.contains e.2 = true
    · rw [if_pos hh, rowEnter_touched_noop e.1 e.2 st (by rw [h2]; exact hh)]
      exact ih t st h1 h2
    · have hf : t.contains e.2 = false := eq_false_of_ne_true hh
      rw [if_neg hh, rowEnter_new e.1 e.2 st h1 (by rw [h2]; exact hf), List.foldl_cons]
      exact ih (e.2 :: t) _ h1 (by simp [h2])

/-- Helper: each row index appears in the row-sweep hide log exactly once
if its key is newly entered, never otherwise (keys unique, events
consistent with the rendered rows). -/
theorem rowSweepLog_count (rows0 : List DataRow)
    (hnd : (rows0.map (fun r => r.key)).Nodup) (enters : List (ℕ × Value)) :
    ∀ (T : List ℕ),
      (∀ j ∈ T, j < rows0.length) →
      (∀ e ∈ enters, e.1 < rows0.length ∧ keyAt rows0 e.1 = e.2) →
      ∀ i, (rowSweepLog (T.map (keyAt rows0)) enters).count i
        = if i ∈ enters.map Prod.fst ∧ i ∉ T then 1 else 0 := by
  induction enters with
  | nil => intro T _ _ i; simp [rowSweepLog]
  | cons e rest ih =>
    intro T hT hcons i
    obtain ⟨helt, hekey⟩ := hcons e (by simp)
    simp only [rowSweepLog]
    by_cases hh : (T.map (keyAt rows0)).contains e.2 = true
    · have he1 : e.1 ∈ T := by
        have hc2 : ((T.map (keyAt rows0)).contains (keyAt rows0 e.1)) = true := by
          rw [hekey]
          exact hh
        rw [contains_map_keyAt rows0 hnd T hT e.1 helt] at hc2
        simpa using hc2
      rw [if_pos hh, ih T hT (fun e2 he2 => hcons e2 (List.mem_cons_of_mem _ he2)) i]
      by_cases hid : i = e.1
      · rw [hid]
        simp [he1]
      · exact if_congr (by simp [List.mem_cons, hid]) rfl rfl
    · have he1 : e.1 ∉ T := by
        intro hc
        have hc2 : ((T.map (keyAt rows0)).contains (keyAt rows0 e.1)) = true := by
          rw [contains_map_keyAt rows0 hnd T hT e.1 helt]
          simpa using hc
        rw [hekey] at hc2
        exact hh hc2
      rw [if_neg hh]
      have hset : e.2 :: T.map (keyAt rows0) = (e.1 :: T).map (keyAt rows0) := by
        rw [List.map_cons, hekey]
      rw [hset]
      have hT2 : ∀ j ∈ e.1 :: T, j < rows0.length := by
        intro j hj
        rcases List.mem_cons.mp hj with rfl | hj2
        · exact helt
        · exact hT j hj2
      have hcons2 := fun e2 he2 => hcons e2 (List.mem_cons_of_mem _ he2)
      by_cases hid : i = e.1
      · rw [hid, List.count_cons_self, ih (e.1 :: T) hT2 hcons2 e.1]
        simp [he1]
      · rw [List.count_cons_of_ne hid, ih (e.1 :: T) hT2 hcons2 i]
        exact if_congr (by simp [List.mem_cons, hid]) rfl rfl

/-- C6: within one sweep gesture (header press, then any sequence of
header-enter events, until release) each distinct header of the gesture's
kind is visibility-toggled exactly once. For a series gesture the sequence
of `toggleSeriesVisible` calls contains each entered header id exactly
once however often it is re-entered, the resulting registry is the fold of
that log, and equals the initial registry with precisely the gesture's
headers flipped; entering an already-touched header is the identity. The
same holds for a row gesture (its `hideRow` call log and the flipped row
store), given the store's unique keys and events carrying the rendered
index/key pairs. -/
theorem c6_sweep_toggles_each_once :
    ∀ (h0 : String) (enters : List String) (series : List SeriesMeta)
      (selected : List String) (rows : List DataRow)
      (e0 : ℕ × Value) (rEnters : List (ℕ × Value)),
      (∀ id, (h0 :: seriesSweepLog [h0] enters).count id
          = if id ∈ h0 :: enters then 1 else 0) ∧
      ((runSeriesSweep h0 enters ⟨none, [], [], series, selected, rows⟩).series
          = (h0 :: seriesSweepLog [h0] enters).foldl
              (fun acc id => toggleVisible id acc) series) ∧
      ((runSeriesSweep h0 enters ⟨none, [], [], series, selected, rows⟩).series
          = flipSeries (h0 :: enters) series) ∧
      (∀ id st, st.sweepSeriesSet.contains id = true →
          handleSeriesHeaderMouseEnter id st = st) ∧
      ((rows.map (fun r => r.key)).Nodup →
       (∀ e ∈ e0 :: rEnters, e.1 < rows.length ∧ keyAt rows e.1 = e.2) →
        (∀ i, (e0.1 :: rowSweepLog [e0.2] rEnters).count i
            = if i ∈ (e0 :: rEnters).map Prod.fst then 1 else 0) ∧
        ((runRowSweep e0 rEnters ⟨none, [], [], series, selected, rows⟩).rows
            = (e0.1 :: rowSweepLog [e0.2] rEnters).foldl
                (fun acc i => hideRow i acc) rows) ∧
        ((runRowSweep e0 rEnters ⟨none, [], [], series, selected, rows⟩).rows
            = flipRows ((e0 :: rEnters).map Prod.fst) rows)) ∧
      (∀ ri k st, st.sweepRowSet.contains k = true →
          handleRowHeaderMouseEnter ri k st = st) := by
  intro h0 enters series selected rows e0 rEnters
  refine ⟨?_, ?_, ?_, fun id st h => seriesEnter_touched_noop id st h, ?_,
    fun ri k st h => rowEnter_touched_noop ri k st h⟩
  · intro id
    rw [List.count_cons, seriesSweepLog_count enters [h0] id]
    by_cases hid : id = h0
    · rw [hid]
      simp
    · have hbe : (id == h0) = false := by simpa using hid
      simp [hbe, hid, List.mem_cons]
      exact fun hc => hid hc.symm
  · have hlog := seriesSweep_foldl_log enters [h0]
      (handleSeriesHeaderMouseDown h0 ⟨none, [], [], series, selected, rows⟩) rfl rfl
    simp only [runSeriesSweep]
    rw [List.foldl_cons]
    exact hlog
  · have hser : (handleSeriesHeaderMouseDown h0
        ⟨none, [], [], series, selected, rows⟩).series = flipSeries [h0] series := by
      have h2 := toggleVisible_flipSeries h0 [] series rfl
      rw [flipSeries_nil] at h2
      exact h2
    obtain ⟨-, -, h3⟩ := seriesSweep_foldl enters [h0] series
      (handleSeriesHeaderMouseDown h0 ⟨none, [], [], series, selected, rows⟩)
      rfl rfl hser
    simp only [runSeriesSweep]
    rw [h3]
    refine flipSeries_congr _ _ series ?_
    intro id
    rw [touchedAfter_mem enters [h0] id]
    simp [List.mem_cons]
  · intro hnd hcons
    obtain ⟨he0lt, he0key⟩ := hcons e0 (by simp)
    have hT1 : ∀ j ∈ [e0.1], j < rows.length := by
      intro j hj
      rcases List.mem_cons.mp hj with rfl | hj2
      · exact he0lt
      · exact absurd hj2 (List.not_mem_nil j)
    have hcons2 := fun e2 he2 => hcons e2 (List.mem_cons_of_mem _ he2)
    have hset : ([e0.1].map (keyAt rows)) = [e0.2] := by
      simp [he0key]
    refine ⟨?_, ?_, ?_⟩
    · intro i
      rw [List.count_cons, ← hset,
        rowSweepLog_count rows hnd rEnters [e0.1] hT1 hcons2 i, List.map_cons]
      by_cases hid : i = e0.1
      · rw [hid]
        simp
      · have hbe : (i == e0.1) = false := by simpa using hid
        have hid2 : ¬ e0.1 = i := fun hc => hid hc.symm
        have hiff : (i ∈ List.map Prod.fst rEnters ∧ i ∉ [e0.1])
            ↔ i ∈ e0.1 :: List.map Prod.fst rEnters := by
          simp [List.mem_cons, List.mem_singleton, hid]
        rw [if_congr hiff rfl rfl]
        simp [hbe, hid2]
    · have hlog := rowSweep_foldl_log rEnters [e0.2]
        (handleRowHeaderMouseDown e0.1 e0.2 ⟨none, [], [], series, selected, rows⟩)
        rfl rfl
      simp only [runRowSweep]
      rw [List.foldl_cons]
      exact hlog
    · have hrows1 : (handleRowHeaderMouseDown e0.1 e0.2
          ⟨none, [], [], series, selected, rows⟩).rows = flipRows [e0.1] rows := by
        have h2 := hideRow_flipRows e0.1 [] rows (List.not_mem_nil e0.1)
        rw [flipRows_nil] at h2
        exact h2
      have hsetr : (handleRowHeaderMouseDown e0.1 e0.2
          ⟨none, [], [], series, selected, rows⟩).sweepRowSet
            = [e0.1].map (keyAt rows) := by
        rw [hset]
        rfl
      obtain ⟨T2, hmem, hr⟩ := rowSweep_foldl rows hnd rEnters [e0.1]
        (handleRowHeaderMouseDown e0.1 e0.2 ⟨none, [], [], series, selected, rows⟩)
        rfl hsetr hrows1 hT1 hcons2
      simp only [runRowSweep]
      rw [hr]
      refine flipRows_congr _ _ rows ?_
      intro j
      rw [hmem j, List.map_cons]
      simp [List.mem_cons]

end ChartDemo
